import Mathlib

/-!
Verification of the nutrient-optimization core of `optimize_nutrients.py`.

The embedding below translates the Python source into Lean definitions.
Python float arithmetic is modelled by exact rational arithmetic (`ℚ`);
numeric literals such as the `1e-12` pivot tolerance denote their decimal
values.  The final `math.sqrt` of `evaluate_diet` is expressed at the
theorem level as `Real.sqrt` applied to the rational error sum, since a
square root is not exactly computable.  Python dicts keyed by the eight
nutrient names are modelled as total functions out of the finite type
`NutKey`; the per-product weight dict keyed by product index is modelled
as a total function `ℕ → ℚ` (matching the `var_map.get(idx, 0.0)` reads).
All loops of the source are structural recursions: the active-set removal
loop receives fuel `m + 1` (the source loop removes at least one index per
round, which is proved below as the termination bound), and the driver
loop receives fuel `max_iter` (the source increments `iteration` exactly
once per non-breaking pass).
-/

namespace OptimizeNutrients

/-- The eight nutrient kinds, in the order of `NUT_KEYS` in the source. -/
inductive NutKey where
  | protein
  | saturatedFat
  | unsaturatedFat
  | simpleCarbs
  | complexCarbs
  | solubleFiber
  | insolubleFiber
  | calories
deriving DecidableEq, Repr

/-- Source list `NUT_KEYS`: the iteration order over nutrient kinds. -/
def NUT_KEYS : List NutKey :=
  [.protein, .saturatedFat, .unsaturatedFat, .simpleCarbs,
   .complexCarbs, .solubleFiber, .insolubleFiber, .calories]

/-- Source dict `WEIGHTS`: per-nutrient weights for error calculation. -/
def WEIGHTS : NutKey → ℚ
  | .protein => 2
  | .saturatedFat => 1
  | .unsaturatedFat => 1
  | .simpleCarbs => 1
  | .complexCarbs => 1
  | .solubleFiber => 1
  | .insolubleFiber => 1
  | .calories => 3

/-- A catalog entry as produced by `load_products`: nutrient content per
100 grams, serving-step size in grams and maximum total weight in grams. -/
structure Product where
  name : String
  nutrients : NutKey → ℚ
  step : ℚ
  max_weight : ℚ

/-- Placeholder product used to totalize list indexing (`products[idx]`);
an out-of-range index would raise in Python and never occurs in the
program, so the placeholder is never relevant to in-range behaviour. -/
def defaultProduct : Product :=
  { name := "", nutrients := fun _ => 0, step := 0, max_weight := 0 }

/-- Source `js_round`: round half up, `math.floor(x + 0.5)`. -/
def jsRound (x : ℚ) : ℤ := ⌊x + 1 / 2⌋

/-- The `1e-12` pivot tolerance of the Gaussian elimination. -/
def EPS : ℚ := 1 / 10 ^ 12

/-- Step size of product `idx` (`step_vals[idx]`). -/
def stepOf (prods : List Product) (idx : ℕ) : ℚ :=
  (prods.getD idx defaultProduct).step

/-- Maximum weight of product `idx` (`max_vals[idx]`). -/
def maxOf (prods : List Product) (idx : ℕ) : ℚ :=
  (prods.getD idx defaultProduct).max_weight

/-- Nutrient content per 100 g of product `idx`. -/
def nutOf (prods : List Product) (idx : ℕ) : NutKey → ℚ :=
  (prods.getD idx defaultProduct).nutrients

/-- Per-gram contribution row `pmat[i]`: nutrients divided by 100. -/
def contribRow (p : Product) : NutKey → ℚ := fun k => p.nutrients k / 100

/-- Contribution rows for an index list (`pmat` in the source). -/
def activeRows (prods : List Product) (idxs : List ℕ) : List (NutKey → ℚ) :=
  idxs.map fun idx => contribRow (prods.getD idx defaultProduct)

/-- Weighted Gram matrix `G[i][j] = sum_k WEIGHTS[k] pmat[i][k] pmat[j][k]`. -/
def gramG (rows : List (NutKey → ℚ)) : List (List ℚ) :=
  rows.map fun ri => rows.map fun rj =>
    (NUT_KEYS.map fun k => WEIGHTS k * ri k * rj k).sum

/-- Right-hand side `b[i] = sum_k WEIGHTS[k] (resid[k] * alpha) pmat[i][k]`. -/
def gramB (rows : List (NutKey → ℚ)) (residVec : NutKey → ℚ) (alpha : ℚ) :
    List ℚ :=
  rows.map fun ri =>
    (NUT_KEYS.map fun k => WEIGHTS k * (residVec k * alpha) * ri k).sum

/-- Partial-pivot row choice for column `col`: the first row in
`[col, m)` with the largest `|aug[r][col]|`, exactly as Python's
`max(range(col, m2), key=...)` returns the first maximal element. -/
def pivotIndex (aug : ℕ → ℕ → ℚ) (m col : ℕ) : ℕ :=
  (List.range' col (m - col)).foldl
    (fun best r => if |aug best col| < |aug r col| then r else best) col

/-- One column of the Gauss-Jordan elimination: pick the pivot row; if its
magnitude is below `EPS` skip the column (returning no divisor), else swap,
normalize the pivot row on columns `col..m`, and eliminate the column from
every other row on columns `col..m`.  The second component records the
divisor actually used. -/
def elimCol (m : ℕ) (aug : ℕ → ℕ → ℚ) (col : ℕ) : (ℕ → ℕ → ℚ) × Option ℚ :=
  let piv := pivotIndex aug m col
  if |aug piv col| < EPS then (aug, none)
  else
    let a1 : ℕ → ℕ → ℚ := fun i j =>
      aug (if i = col then piv else if i = piv then col else i) j
    let p := a1 col col
    let a2 : ℕ → ℕ → ℚ := fun i j =>
      if i = col then (if col ≤ j then a1 i j / p else a1 i j)
      else if col ≤ j then a1 i j - a1 i col * (a1 col j / p)
      else a1 i j
    (a2, some p)

/-- One fold step of the elimination sweep, accumulating the divisors
used (for the no-division-by-small-pivot property). -/
def elimStep (m : ℕ) (st : (ℕ → ℕ → ℚ) × List ℚ) (col : ℕ) :
    (ℕ → ℕ → ℚ) × List ℚ :=
  let r := elimCol m st.1 col
  (r.1, match r.2 with
        | none => st.2
        | some p => st.2 ++ [p])

/-- Full elimination sweep over the `m` columns. -/
def elimAll (m : ℕ) (aug : ℕ → ℕ → ℚ) : (ℕ → ℕ → ℚ) × List ℚ :=
  (List.range m).foldl (elimStep m) (aug, [])

/-- Back-substitution helper: values of rows `m - c .. m - 1`, computed
bottom-up (`sol_vec[i] = aug[i][m] - sum_{j>i} aug[i][j] * sol_vec[j]`). -/
def backSubAux (m : ℕ) (aug : ℕ → ℕ → ℚ) : ℕ → List ℚ
  | 0 => []
  | c + 1 =>
    let rest := backSubAux m aug c
    let i := m - (c + 1)
    let v := aug i m -
      (((List.range' (i + 1) c).zip rest).map fun pr => aug i pr.1 * pr.2).sum
    v :: rest

/-- The full `sol_vec` of one elimination pass. -/
def backSub (m : ℕ) (aug : ℕ → ℕ → ℚ) : List ℚ := backSubAux m aug m

/-- One linear solve `G·x = b` on the current active subset: build the
augmented matrix, eliminate, back-substitute. -/
def solFromLists (idxs : List ℕ) (G : List (List ℚ)) (b : List ℚ) : List ℚ :=
  let m2 := idxs.length
  let aug : ℕ → ℕ → ℚ := fun i j =>
    if j = m2 then b.getD i 0 else (G.getD i []).getD j 0
  backSub m2 (elimAll m2 aug).1

/-- Sign check on one solved component: `sol_vec[i]` is not negative
(the complement of membership in `neg` in the source). -/
def solOk (sol : List ℚ) (i : ℕ) : Bool := decide (¬ sol.getD i 0 < 0)

/-- The `keep` index list of one removal round. -/
def keepList (m2 : ℕ) (sol : List ℚ) : List ℕ :=
  (List.range m2).filter (solOk sol)

/-- The active-set removal loop (`while True:` of the source): solve,
and if any component is negative drop those indices and re-solve the
smaller system; stop when no component is negative or the subset is
empty.  Returns the number of solve passes together with either
`some (active_idxs, sol)` or `none` (the `sol = []` outcome).  The fuel
argument is `length + 1` at the top call; the termination theorems below
show this fuel is never exhausted. -/
def activeSetLoop :
    ℕ → List ℕ → List (List ℚ) → List ℚ → ℕ × Option (List ℕ × List ℚ)
  | 0, _, _, _ => (0, none)
  | fuel + 1, idxs, G, b =>
    if idxs.isEmpty then (0, none)
    else
      let sol := solFromLists idxs G b
      if (List.range idxs.length).all (solOk sol) then
        (1, some (idxs, sol))
      else
        let keep := keepList idxs.length sol
        let r := activeSetLoop fuel (keep.map fun i => idxs.getD i 0)
          (keep.map fun i => keep.map fun j => (G.getD i []).getD j 0)
          (keep.map fun i => b.getD i 0)
        (r.1 + 1, r.2)

/-- The solver entry point: run the removal loop with enough fuel. -/
def activeSetSolve (idxs : List ℕ) (G : List (List ℚ)) (b : List ℚ) :
    ℕ × Option (List ℕ × List ℚ) :=
  activeSetLoop (idxs.length + 1) idxs G b

/-- Lines 154-169 of the source, per product: take the continuous solver
increment, clip it to the remaining capacity, round half-up to a step
multiple, re-floor if the rounding exceeded the remaining capacity, and
clamp a negative rounding result to zero.  Returns the gram increment that
the caller then applies when it is positive. -/
def applyIncrement (grams remaining stp : ℚ) : ℚ :=
  if grams ≤ 0 then 0
  else if remaining ≤ 0 then 0
  else
    let g1 := if remaining < grams then remaining else grams
    if 0 < stp then
      let r1 := ((jsRound (g1 / stp) : ℤ) : ℚ) * stp
      let r2 := if remaining < r1 then ((⌊remaining / stp⌋ : ℤ) : ℚ) * stp
                else r1
      if r2 < 0 then 0 else r2
    else g1

/-- Mutable state of one trial of `run_iterative_optimization`.
`callerResid` is the dict passed by the caller; line 78 of the source
copies it into the locally mutated `residVec`, and no assignment in the
function targets `callerResid` or `products`. -/
structure DriverState where
  products : List Product
  callerResid : NutKey → ℚ
  residVec : NutKey → ℚ
  varAdd : ℕ → ℚ
  active : List ℕ
  iteration : ℕ

/-- Accumulator of the increment-application loop (lines 152-176). -/
structure ApplyState where
  varAdd : ℕ → ℚ
  residVec : NutKey → ℚ
  anyPositive : Bool

/-- Apply one `(idx, grams)` pair returned by the solver: compute the
discrete increment and, when it is positive, add it to `var_add[idx]` and
subtract the nutrient contribution from the residual. -/
def applyOne (prods : List Product) (st : ApplyState) (pr : ℕ × ℚ) :
    ApplyState :=
  let idx := pr.1
  let g := applyIncrement pr.2 (maxOf prods idx - st.varAdd idx)
    (stepOf prods idx)
  if g ≤ 0 then st
  else
    { varAdd := fun i => if i = idx then st.varAdd idx + g else st.varAdd i
      residVec := fun k => st.residVec k - nutOf prods idx k / 100 * g
      anyPositive := true }

/-- The increment-application loop over all solver results of one pass. -/
def applyAll (prods : List Product) (pairs : List (ℕ × ℚ)) (va : ℕ → ℚ)
    (rv : NutKey → ℚ) : ApplyState :=
  pairs.foldl (applyOne prods)
    { varAdd := va, residVec := rv, anyPositive := false }

/-- Eligibility filter at the top of each driver pass: positive step size
and remaining capacity of at least half a step. -/
def eligibleFilter (s : DriverState) : List ℕ :=
  s.active.filter fun idx =>
    decide (0 < stepOf s.products idx ∧
      stepOf s.products idx / 2 ≤ maxOf s.products idx - s.varAdd idx)

/-- Outcome of one pass of the driver's `while` body: `halt` models the
`break` statements, `cont` models reaching `iteration += 1`. -/
inductive StepOut where
  | halt (s : DriverState)
  | cont (s : DriverState)

/-- The state carried by a `StepOut`. -/
def StepOut.state : StepOut → DriverState
  | .halt s => s
  | .cont s => s

/-- One pass of the driver loop body (lines 86-179 of the source). -/
def driverStep (alpha : ℚ) (s : DriverState) : StepOut :=
  let act := eligibleFilter s
  if act.isEmpty then .halt { s with active := act }
  else
    let rows := activeRows s.products act
    match (activeSetSolve act (gramG rows) (gramB rows s.residVec alpha)).2 with
    | none => .halt { s with active := act }
    | some pr =>
      let ap := applyAll s.products (pr.1.zip pr.2) s.varAdd s.residVec
      if ap.anyPositive then
        .cont
          { s with
            active := act
            varAdd := ap.varAdd
            residVec := ap.residVec
            iteration := s.iteration + 1 }
      else
        .halt
          { s with
            active := act
            varAdd := ap.varAdd
            residVec := ap.residVec }

/-- The driver's `while active and iteration < max_iter` loop; the fuel is
`max_iter - iteration`, which matches the source because `iteration`
increments exactly once per non-breaking pass. -/
def driverLoop (alpha : ℚ) : ℕ → DriverState → DriverState
  | 0, s => s
  | fuel + 1, s =>
    if s.active.isEmpty then s
    else
      match driverStep alpha s with
      | .halt s2 => s2
      | .cont s2 => driverLoop alpha fuel s2

/-- Initial trial state: residual copied from the caller's dict, all
assigned weights zero, all of `var_idxs` active. -/
def initState (prods : List Product) (varIdxs : List ℕ)
    (resid : NutKey → ℚ) : DriverState :=
  { products := prods, callerResid := resid, residVec := fun k => resid k,
    varAdd := fun _ => 0, active := varIdxs, iteration := 0 }

/-- Full run of `run_iterative_optimization`, returning the final state. -/
def runDriver (prods : List Product) (varIdxs : List ℕ)
    (resid : NutKey → ℚ) (alpha : ℚ) (maxIter : ℕ) : DriverState :=
  driverLoop alpha maxIter (initState prods varIdxs resid)

/-- Source `run_iterative_optimization`: the returned `var_add` map,
read as `var_map.get(idx, 0.0)` is read by the callers. -/
def run_iterative_optimization (prods : List Product) (varIdxs : List ℕ)
    (resid : NutKey → ℚ) (alpha : ℚ) (maxIter : ℕ := 10) : ℕ → ℚ :=
  (runDriver prods varIdxs resid alpha maxIter).varAdd

/-- One step of the totals accumulation of `evaluate_diet` (lines
187-193): products with positive grams contribute `nutrients * grams/100`. -/
def addTotals (prods : List Product) (varMap : ℕ → ℚ) (tot : NutKey → ℚ)
    (idx : ℕ) : NutKey → ℚ :=
  if 0 < varMap idx then
    fun k => tot k + nutOf prods idx k * (varMap idx / 100)
  else tot

/-- Achieved nutrient totals of a trial. -/
def dietTotals (prods : List Product) (varIdxs : List ℕ) (varMap : ℕ → ℚ) :
    NutKey → ℚ :=
  varIdxs.foldl (addTotals prods varMap) fun _ => 0

/-- The weighted squared-error sum of `evaluate_diet` (lines 194-199):
`err_sum = sum_k WEIGHTS[k] * (target[k] - totals[k])^2`. -/
def scoreErrSum (targets totals : NutKey → ℚ) : ℚ :=
  (NUT_KEYS.map fun k =>
    WEIGHTS k * (targets k - totals k) * (targets k - totals k)).sum

/-- Result of `evaluate_diet`.  The reported RMSE of the source is
`sqrt(errSum / nKeys)`; the square root lives at the theorem level. -/
structure DietResult where
  varMap : ℕ → ℚ
  totals : NutKey → ℚ
  errSum : ℚ
  nKeys : ℕ

/-- Source `evaluate_diet`: copy the targets into a fresh residual, run
the driver with the default iteration cap 10, accumulate totals over
positive assignments and compute the weighted squared-error sum over the
`n_keys = 8` nutrient kinds. -/
def evaluate_diet (prods : List Product) (varIdxs : List ℕ)
    (targets : NutKey → ℚ) (alpha : ℚ) : DietResult :=
  let resid : NutKey → ℚ := fun k => targets k
  let varMap := run_iterative_optimization prods varIdxs resid alpha 10
  let totals := dietTotals prods varIdxs varMap
  { varMap := varMap, totals := totals,
    errSum := scoreErrSum targets totals, nKeys := NUT_KEYS.length }

/-- The `(alpha, run)` pairs visited by the search controller's nested
loops: `for alpha in range(start_alpha, 101): for run in range(1, repeats+1)`
with `repeats = max(1, runs_per_alpha)`. -/
def trialList (startAlpha runsPerAlpha : ℕ) : List (ℕ × ℕ) :=
  (List.range' startAlpha (101 - startAlpha)).flatMap fun a =>
    (List.range' 1 (max 1 runsPerAlpha)).map fun r => (a, r)

/-- The best-trial record kept by `main`.  Comparisons of the source are
on `rmse = sqrt(err_sum / 8)`; since `sqrt` and `x ↦ x/8` are strictly
monotone on nonnegative arguments, comparing `errSum` is equivalent (this
equivalence is proved in the search-controller theorem). -/
structure BestEntry where
  alphaVal : ℕ
  runIdx : ℕ
  weights : List ℚ
  totals : NutKey → ℚ
  errSum : ℚ

/-- Best-so-far update of `main`: replace only on strictly lower score. -/
def updateBest (best : Option BestEntry) (e : BestEntry) : Option BestEntry :=
  match best with
  | none => some e
  | some b => if e.errSum < b.errSum then some e else some b

/-- One trial of the search controller, using the visitation order the
shuffle produced for this `(alpha, run)` pair. -/
def trialEntry (prods : List Product) (targets : NutKey → ℚ)
    (orders : ℕ → ℕ → List ℕ) (pr : ℕ × ℕ) : BestEntry :=
  let d := evaluate_diet prods (orders pr.1 pr.2) targets ((pr.1 : ℚ) / 100)
  { alphaVal := pr.1, runIdx := pr.2,
    weights := (List.range prods.length).map fun i => d.varMap i,
    totals := d.totals, errSum := d.errSum }

/-- The search controller of `main` (lines 253-273), parameterized by the
shuffle outcomes: fold the best-update over all trials. -/
def searchBest (prods : List Product) (targets : NutKey → ℚ)
    (startAlpha runsPerAlpha : ℕ) (orders : ℕ → ℕ → List ℕ) :
    Option BestEntry :=
  (trialList startAlpha runsPerAlpha).foldl
    (fun best pr => updateBest best (trialEntry prods targets orders pr)) none

/-- Source `calculate_calories`: the derived-calories formula. -/
def calculate_calories (targets : NutKey → ℚ) : ℚ :=
  4 * targets .protein
    + 9 * (targets .saturatedFat + targets .unsaturatedFat)
    + 4 * (targets .simpleCarbs + targets .complexCarbs)
    + 3 / 2 * (targets .solubleFiber + targets .insolubleFiber)

/-! ## Basic facts about the scoring data -/

lemma WEIGHTS_pos : ∀ k, 0 < WEIGHTS k := by
  intro k
  cases k <;> norm_num [WEIGHTS]

lemma mem_NUT_KEYS : ∀ k, k ∈ NUT_KEYS := by
  intro k
  cases k <;> simp [NUT_KEYS]

lemma errTerm_nonneg (t x : NutKey → ℚ) (k : NutKey) :
    0 ≤ WEIGHTS k * (t k - x k) * (t k - x k) := by
  have h := WEIGHTS_pos k
  nlinarith [mul_self_nonneg (t k - x k)]

lemma scoreErrSum_nonneg (t x : NutKey → ℚ) : 0 ≤ scoreErrSum t x := by
  apply List.sum_nonneg
  intro q hq
  simp only [List.mem_map] at hq
  obtain ⟨k, -, rfl⟩ := hq
  exact errTerm_nonneg t x k

lemma weighted_sum_zero_iff (t x : NutKey → ℚ) (l : List NutKey) :
    (l.map fun k => WEIGHTS k * (t k - x k) * (t k - x k)).sum = 0 ↔
      ∀ k ∈ l, x k = t k := by
  induction l with
  | nil => simp
  | cons a l ih =>
    have h1 := errTerm_nonneg t x a
    have h2 : 0 ≤ (l.map fun k => WEIGHTS k * (t k - x k) * (t k - x k)).sum := by
      apply List.sum_nonneg
      intro q hq
      simp only [List.mem_map] at hq
      obtain ⟨k, -, rfl⟩ := hq
      exact errTerm_nonneg t x k
    simp only [List.map_cons, List.sum_cons]
    constructor
    · intro h
      have hA : WEIGHTS a * (t a - x a) * (t a - x a) = 0 := by linarith
      have hB : (l.map fun k => WEIGHTS k * (t k - x k) * (t k - x k)).sum = 0 := by
        linarith
      intro k hk
      rcases List.mem_cons.mp hk with rfl | hk2
      · have hw := WEIGHTS_pos k
        have hz : (t k - x k) * (t k - x k) = 0 := by
          rcases mul_eq_zero.mp hA with h3 | h3
          · rcases mul_eq_zero.mp h3 with h4 | h4
            · exact absurd h4 (ne_of_gt hw)
            · rw [h4, zero_mul]
          · rw [h3, mul_zero]
        have := mul_self_eq_zero.mp hz
        linarith
      · exact (ih.mp hB) k hk2
    · intro h
      have hA : x a = t a := h a (List.mem_cons_self a l)
      have hz : t a - x a = 0 := by rw [hA]; ring
      rw [hz, mul_zero, zero_add]
      exact ih.mpr fun k hk => h k (List.mem_cons.mpr (Or.inr hk))

lemma scoreErrSum_eq_zero_iff (t x : NutKey → ℚ) :
    scoreErrSum t x = 0 ↔ ∀ k, x k = t k := by
  rw [scoreErrSum, weighted_sum_zero_iff]
  exact ⟨fun h k => h k (mem_NUT_KEYS k), fun h k _ => h k⟩

/-- C2.  The score of `evaluate_diet` is
`sqrt((sum over the 8 nutrient kinds of WEIGHTS[k]*(target[k]-total[k])^2)/8)`:
the stored error sum is exactly the weighted squared-error formula, the
divisor `nKeys` is the count 8 of nutrient kinds (and not the weight sum,
which is 11), the RMSE is non-negative, and it is zero exactly when the
achieved totals match the targets in every nutrient kind. -/
theorem evaluate_diet_score_spec (prods : List Product) (varIdxs : List ℕ)
    (targets : NutKey → ℚ) (alpha : ℚ) (t x : NutKey → ℚ) :
    (evaluate_diet prods varIdxs targets alpha).errSum
        = scoreErrSum targets (evaluate_diet prods varIdxs targets alpha).totals
      ∧ (evaluate_diet prods varIdxs targets alpha).nKeys = 8
      ∧ (NUT_KEYS.map WEIGHTS).sum = 11
      ∧ 0 ≤ Real.sqrt ((scoreErrSum t x : ℝ) / 8)
      ∧ (Real.sqrt ((scoreErrSum t x : ℝ) / 8) = 0 ↔ ∀ k, x k = t k) := by
  refine ⟨rfl, rfl, by norm_num [NUT_KEYS, WEIGHTS], Real.sqrt_nonneg _, ?_⟩
  rw [Real.sqrt_eq_zero']
  constructor
  · intro h
    have h0 : 0 ≤ scoreErrSum t x := scoreErrSum_nonneg t x
    have h1 : (scoreErrSum t x : ℝ) ≤ 0 := by linarith
    have h2 : scoreErrSum t x = 0 := by
      have : (scoreErrSum t x : ℝ) = 0 := le_antisymm h1 (by exact_mod_cast h0)
      exact_mod_cast this
    exact (scoreErrSum_eq_zero_iff t x).mp h2
  · intro h
    have h2 : scoreErrSum t x = 0 := (scoreErrSum_eq_zero_iff t x).mpr h
    rw [h2]
    norm_num

/-- Witness for C2 at concrete data: the divisor is the key count 8. -/
theorem evaluate_diet_score_spec_witness :
    (evaluate_diet [] [] (fun _ : NutKey => (0:ℚ)) 1).nKeys = 8 :=
  (evaluate_diet_score_spec [] [] (fun _ => 0) 1 (fun _ => 0) (fun _ => 0)).2.1

/-! ## C8: the clip / round-half-up / re-floor rounding contract -/

/-- C8.  A product with positive step size whose remaining capacity is
exactly 1.5 steps, for which the continuous solve returned 2 steps, gets
exactly 1 step applied: the increment is clipped to 1.5 steps, rounded
half-up to 2 steps, found to exceed the remaining capacity and re-floored
to the largest fitting multiple, 1 step. -/
theorem applyIncrement_capacity_scenario (s : ℚ) (hs : 0 < s) :
    jsRound (3 * s / 2 / s) = 2 ∧ applyIncrement (2 * s) (3 * s / 2) s = s := by
  have hns : s ≠ 0 := ne_of_gt hs
  have h32 : 3 * s / 2 / s = 3 / 2 := by field_simp; ring
  have hfloor2 : (⌊(3:ℚ) / 2 + 1 / 2⌋ : ℤ) = 2 := by norm_num [Int.floor_eq_iff]
  have hfloor1 : (⌊(3:ℚ) / 2⌋ : ℤ) = 1 := by norm_num [Int.floor_eq_iff]
  have hr : jsRound (3 * s / 2 / s) = 2 := by rw [jsRound, h32]; exact hfloor2
  refine ⟨hr, ?_⟩
  simp only [applyIncrement]
  rw [if_neg (show ¬ 2 * s ≤ 0 by linarith),
    if_neg (show ¬ 3 * s / 2 ≤ 0 by linarith),
    if_pos (show 3 * s / 2 < 2 * s by linarith), if_pos hs, h32, jsRound,
    hfloor2, if_pos (show 3 * s / 2 < ((2:ℤ):ℚ) * s by push_cast; linarith),
    hfloor1, if_neg (show ¬ ((1:ℤ):ℚ) * s < 0 by push_cast; linarith)]
  push_cast
  ring

/-- Witness for C8 at step size 2: remaining capacity 3, requested 4,
applied increment 2 (one step). -/
theorem applyIncrement_capacity_scenario_witness :
    jsRound (3 * 2 / 2 / 2) = 2 ∧ applyIncrement (2 * 2) (3 * 2 / 2) 2 = 2 :=
  applyIncrement_capacity_scenario 2 (by norm_num)

/-! ## Frame lemmas: the driver never writes `products` or `callerResid` -/

lemma driverStep_state_products (alpha : ℚ) (s : DriverState) :
    (driverStep alpha s).state.products = s.products := by
  rw [driverStep]
  split
  · rfl
  · dsimp only
    split
    · rfl
    · split
      · rfl
      · rfl

lemma driverStep_state_callerResid (alpha : ℚ) (s : DriverState) :
    (driverStep alpha s).state.callerResid = s.callerResid := by
  rw [driverStep]
  split
  · rfl
  · dsimp only
    split
    · rfl
    · split
      · rfl
      · rfl

lemma driverLoop_products (alpha : ℚ) (fuel : ℕ) (s : DriverState) :
    (driverLoop alpha fuel s).products = s.products := by
  induction fuel generalizing s with
  | zero => rfl
  | succ fuel ih =>
    rw [driverLoop]
    split
    · rfl
    · rcases h : driverStep alpha s with s2 | s2
      · have := driverStep_state_products alpha s
        rw [h] at this
        exact this
      · have := driverStep_state_products alpha s
        rw [h] at this
        rw [ih s2]
        exact this

lemma driverLoop_callerResid (alpha : ℚ) (fuel : ℕ) (s : DriverState) :
    (driverLoop alpha fuel s).callerResid = s.callerResid := by
  induction fuel generalizing s with
  | zero => rfl
  | succ fuel ih =>
    rw [driverLoop]
    split
    · rfl
    · rcases h : driverStep alpha s with s2 | s2
      · have := driverStep_state_callerResid alpha s
        rw [h] at this
        exact this
      · have := driverStep_state_callerResid alpha s
        rw [h] at this
        rw [ih s2]
        exact this

/-- C9.  The driver mutates neither its arguments nor the catalog: after a
full run the caller's residual dict (copied on entry, never assigned) and
the product list (with every product record in it) are unchanged; only the
per-trial increment map is built up. -/
theorem run_iterative_optimization_frame (prods : List Product)
    (varIdxs : List ℕ) (resid : NutKey → ℚ) (alpha : ℚ) (maxIter : ℕ) :
    (runDriver prods varIdxs resid alpha maxIter).products = prods
      ∧ (runDriver prods varIdxs resid alpha maxIter).callerResid = resid
      ∧ (initState prods varIdxs resid).varAdd = fun _ => 0 :=
  ⟨driverLoop_products alpha maxIter (initState prods varIdxs resid),
   driverLoop_callerResid alpha maxIter (initState prods varIdxs resid),
   rfl⟩

/-! ## C10: determinism of `evaluate_diet`; randomness only in the shuffle -/

/-- C10.  `evaluate_diet` is a pure function of its four arguments: two
calls with equal products, ordered index list, targets and alpha give
identical results; and the search controller's outcome depends on the
randomized shuffles only through the visitation orders they produce. -/
theorem evaluate_diet_deterministic :
    (∀ (p1 p2 : List Product) (v1 v2 : List ℕ) (t1 t2 : NutKey → ℚ)
        (a1 a2 : ℚ), p1 = p2 → v1 = v2 → t1 = t2 → a1 = a2 →
        evaluate_diet p1 v1 t1 a1 = evaluate_diet p2 v2 t2 a2)
      ∧ (∀ (prods : List Product) (targets : NutKey → ℚ)
          (startAlpha runsPerAlpha : ℕ) (o1 o2 : ℕ → ℕ → List ℕ),
          (∀ a r, o1 a r = o2 a r) →
          searchBest prods targets startAlpha runsPerAlpha o1
            = searchBest prods targets startAlpha runsPerAlpha o2) := by
  constructor
  · intro p1 p2 v1 v2 t1 t2 a1 a2 hp hv ht ha
    rw [hp, hv, ht, ha]
  · intro prods targets startAlpha runsPerAlpha o1 o2 ho
    have : o1 = o2 := funext fun a => funext fun r => ho a r
    rw [this]

/-- Witness for C10 at concrete equal inputs. -/
theorem evaluate_diet_deterministic_witness :
    evaluate_diet [] [] (fun _ : NutKey => (0:ℚ)) 1
        = evaluate_diet [] [] (fun _ : NutKey => (0:ℚ)) 1
      ∧ searchBest [] (fun _ : NutKey => (0:ℚ)) 100 1 (fun _ _ => [])
          = searchBest [] (fun _ : NutKey => (0:ℚ)) 100 1 (fun _ _ => []) :=
  ⟨evaluate_diet_deterministic.1 [] [] [] [] (fun _ => 0) (fun _ => 0) 1 1
      rfl rfl rfl rfl,
   evaluate_diet_deterministic.2 [] (fun _ => 0) 100 1 (fun _ _ => [])
      (fun _ _ => []) (fun _ _ => rfl)⟩

/-! ## C5: trial count and strict-improvement best keeping -/

/-- C5.  The search controller visits one trial per `(alpha, run)` pair
with `alpha` from `startAlpha` to 100 inclusive and `max 1 runsPerAlpha`
runs per pacing value — `(101 - startAlpha) * max 1 runsPerAlpha` trials
in total, with `runsPerAlpha = 0` treated as 1 — and it replaces the best
entry only on a strictly lower score, so on exact ties the earlier trial
wins.  Comparing the rational error sums is equivalent to comparing the
RMSE values `sqrt(errSum/8)` of the source, by strict monotonicity of the
square root on nonnegative arguments. -/
theorem search_controller_spec (startAlpha runsPerAlpha : ℕ)
    (h1 : 1 ≤ startAlpha) (h2 : startAlpha ≤ 100) (h3 : runsPerAlpha ≤ 100) :
    (trialList startAlpha runsPerAlpha).length
        = (101 - startAlpha) * max 1 runsPerAlpha
      ∧ (∀ (prods : List Product) (targets : NutKey → ℚ)
          (orders : ℕ → ℕ → List ℕ),
          searchBest prods targets startAlpha runsPerAlpha orders
            = (trialList startAlpha runsPerAlpha).foldl
                (fun best pr =>
                  updateBest best (trialEntry prods targets orders pr)) none)
      ∧ (∀ b e, e.errSum = b.errSum → updateBest (some b) e = some b)
      ∧ (∀ b e, e.errSum < b.errSum → updateBest (some b) e = some e)
      ∧ (∀ e1 e2 : ℚ, 0 ≤ e1 → 0 ≤ e2 →
          (Real.sqrt ((e1 : ℝ) / 8) < Real.sqrt ((e2 : ℝ) / 8) ↔ e1 < e2)) := by
  refine ⟨?_, fun _ _ _ => rfl, ?_, ?_, ?_⟩
  · simp [trialList, List.length_flatMap, Function.comp_def, List.map_const',
      List.sum_replicate, smul_eq_mul]
  · intro b e he
    simp only [updateBest]
    rw [he]
    exact if_neg (lt_irrefl _)
  · intro b e he
    simp only [updateBest]
    exact if_pos he
  · intro e1 e2 he1 he2
    constructor
    · intro h
      by_contra hle
      push_neg at hle
      have hc : (e2 : ℝ) ≤ e1 := by exact_mod_cast hle
      have := Real.sqrt_le_sqrt (show (e2 : ℝ) / 8 ≤ (e1 : ℝ) / 8 by linarith)
      linarith
    · intro h
      have hc : (e1 : ℝ) < e2 := by exact_mod_cast h
      exact Real.sqrt_lt_sqrt (by positivity) (by linarith)

/-! ## C7: numerical degeneracy degrades gracefully, never a crash -/

lemma elimCol_skip (m : ℕ) (aug : ℕ → ℕ → ℚ) (col : ℕ)
    (h : |aug (pivotIndex aug m col) col| < EPS) :
    elimCol m aug col = (aug, none) := by
  rw [elimCol]
  exact if_pos h

lemma elimCol_divisor (m : ℕ) (aug : ℕ → ℕ → ℚ) (col : ℕ) (p : ℚ)
    (h : (elimCol m aug col).2 = some p) : EPS ≤ |p| := by
  rw [elimCol] at h
  by_cases hc : |aug (pivotIndex aug m col) col| < EPS
  · rw [if_pos hc] at h
    exact absurd h (by simp)
  · rw [if_neg hc] at h
    dsimp only at h
    rw [if_pos rfl] at h
    have hp : aug (pivotIndex aug m col) col = p := Option.some.inj h
    rw [← hp]
    exact not_lt.mp hc

lemma elimStep_divisors (m : ℕ) (st : (ℕ → ℕ → ℚ) × List ℚ) (col : ℕ)
    (h : ∀ d ∈ st.2, EPS ≤ |d|) : ∀ d ∈ (elimStep m st col).2, EPS ≤ |d| := by
  intro d hd
  rw [elimStep] at hd
  dsimp only at hd
  rcases hc : (elimCol m st.1 col).2 with _ | p
  · rw [hc] at hd
    exact h d hd
  · rw [hc] at hd
    rcases List.mem_append.mp hd with hd2 | hd2
    · exact h d hd2
    · have : d = p := by simpa using hd2
      rw [this]
      exact elimCol_divisor m st.1 col p hc

lemma elimAll_divisors (m : ℕ) (aug : ℕ → ℕ → ℚ) :
    ∀ d ∈ (elimAll m aug).2, EPS ≤ |d| := by
  rw [elimAll]
  generalize List.range m = cols
  suffices h : ∀ (cols : List ℕ) (st : (ℕ → ℕ → ℚ) × List ℚ),
      (∀ d ∈ st.2, EPS ≤ |d|) →
      ∀ d ∈ (cols.foldl (elimStep m) st).2, EPS ≤ |d| by
    exact h cols (aug, []) (by simp)
  intro cols
  induction cols with
  | nil => intro st hst; simpa using hst
  | cons c cols ih =>
    intro st hst
    rw [List.foldl_cons]
    exact ih (elimStep m st c) (elimStep_divisors m st c hst)

lemma driverStep_none_halt (alpha : ℚ) (s : DriverState)
    (hne : (eligibleFilter s).isEmpty = false)
    (hsol : (activeSetSolve (eligibleFilter s)
        (gramG (activeRows s.products (eligibleFilter s)))
        (gramB (activeRows s.products (eligibleFilter s)) s.residVec alpha)).2
          = none) :
    driverStep alpha s = .halt { s with active := eligibleFilter s } := by
  rw [driverStep]
  rw [if_neg (by simp [hne])]
  dsimp only
  rw [hsol]

/-- C7.  Numerical degeneracy never raises: when the largest available
pivot magnitude in a column is below the `1e-12` tolerance the column is
skipped unchanged (so no division by a near-zero pivot occurs — every
divisor the elimination uses has magnitude at least `EPS`), and when the
active subset empties out the solver yields no solution, which the driver
turns into an immediate graceful stop of the trial (its stagnation path),
not an exception.  (All embedded functions are total, so no evaluation of
the core can fail.) -/
theorem degeneracy_degrades_gracefully :
    (∀ (m : ℕ) (aug : ℕ → ℕ → ℚ) (col : ℕ),
        |aug (pivotIndex aug m col) col| < EPS →
        elimCol m aug col = (aug, none))
      ∧ (∀ (m : ℕ) (aug : ℕ → ℕ → ℚ), ∀ d ∈ (elimAll m aug).2, EPS ≤ |d|)
      ∧ (∀ (G : List (List ℚ)) (b : List ℚ),
          (activeSetSolve [] G b).2 = none)
      ∧ (∀ (alpha : ℚ) (s : DriverState),
          (eligibleFilter s).isEmpty = false →
          (activeSetSolve (eligibleFilter s)
            (gramG (activeRows s.products (eligibleFilter s)))
            (gramB (activeRows s.products (eligibleFilter s)) s.residVec alpha)).2
              = none →
          driverStep alpha s = .halt { s with active := eligibleFilter s }) :=
  ⟨elimCol_skip, elimAll_divisors, fun _ _ => rfl, driverStep_none_halt⟩

/-- Witness for C7: the all-zero one-column matrix is skipped unchanged. -/
theorem degeneracy_degrades_gracefully_witness :
    elimCol 1 (fun _ _ => (0:ℚ)) 0 = (fun _ _ => (0:ℚ), none) :=
  degeneracy_degrades_gracefully.1 1 (fun _ _ => 0) 0
    (by norm_num [EPS])

/-! ## C6: termination and sign discipline of the active-set loop -/

lemma backSubAux_length (m : ℕ) (aug : ℕ → ℕ → ℚ) :
    ∀ c, (backSubAux m aug c).length = c := by
  intro c
  induction c with
  | zero => rfl
  | succ c ih => rw [backSubAux]; simpa using ih

lemma solFromLists_length (idxs : List ℕ) (G : List (List ℚ)) (b : List ℚ) :
    (solFromLists idxs G b).length = idxs.length := by
  rw [solFromLists]
  exact backSubAux_length _ _ _

lemma keepList_length_lt (m2 : ℕ) (sol : List ℚ)
    (h : ¬ ((List.range m2).all (solOk sol)) = true) :
    (keepList m2 sol).length < m2 := by
  rw [List.all_eq_true] at h
  rcases not_forall.mp h with ⟨i, hi⟩
  rcases Classical.not_imp.mp hi with ⟨him, hpi⟩
  have hlt : (keepList m2 sol).length < (List.range m2).length := by
    apply lt_of_le_of_ne (List.length_filter_le _ _)
    intro heq
    exact hpi ((List.filter_length_eq_length).mp heq i him)
  simpa using hlt

lemma activeSetLoop_rounds_le :
    ∀ (fuel : ℕ) (idxs : List ℕ) (G : List (List ℚ)) (b : List ℚ),
    idxs.length < fuel → (activeSetLoop fuel idxs G b).1 ≤ idxs.length := by
  intro fuel
  induction fuel with
  | zero => intro idxs G b h; exact absurd h (Nat.not_lt_zero _)
  | succ fuel ih =>
    intro idxs G b h
    rw [activeSetLoop]
    by_cases he : idxs.isEmpty
    · rw [if_pos he]
      exact Nat.zero_le _
    · rw [if_neg he]
      dsimp only
      by_cases hall :
          ((List.range idxs.length).all (solOk (solFromLists idxs G b))) = true
      · rw [if_pos hall]
        have hne : idxs ≠ [] := by simpa [List.isEmpty_iff] using he
        have := List.length_pos.mpr hne
        omega
      · rw [if_neg hall]
        have hk := keepList_length_lt idxs.length (solFromLists idxs G b) hall
        have hrec := ih
          ((keepList idxs.length (solFromLists idxs G b)).map
            fun i => idxs.getD i 0)
          ((keepList idxs.length (solFromLists idxs G b)).map
            fun i => (keepList idxs.length (solFromLists idxs G b)).map
              fun j => (G.getD i []).getD j 0)
          ((keepList idxs.length (solFromLists idxs G b)).map
            fun i => b.getD i 0)
          (by simpa using Nat.lt_of_lt_of_le hk (Nat.lt_succ_iff.mp h))
        dsimp only
        simp only [List.length_map] at hrec
        omega

lemma activeSetLoop_fuel_stable :
    ∀ (fuel1 fuel2 : ℕ) (idxs : List ℕ) (G : List (List ℚ)) (b : List ℚ),
    idxs.length < fuel1 → idxs.length < fuel2 →
    activeSetLoop fuel1 idxs G b = activeSetLoop fuel2 idxs G b := by
  intro fuel1
  induction fuel1 with
  | zero => intro fuel2 idxs G b h1 _; exact absurd h1 (Nat.not_lt_zero _)
  | succ fuel1 ih =>
    intro fuel2 idxs G b h1 h2
    rcases fuel2 with _ | fuel2
    · exact absurd h2 (Nat.not_lt_zero _)
    rw [activeSetLoop, activeSetLoop]
    by_cases he : idxs.isEmpty
    · rw [if_pos he, if_pos he]
    · rw [if_neg he, if_neg he]
      dsimp only
      by_cases hall :
          ((List.range idxs.length).all (solOk (solFromLists idxs G b))) = true
      · rw [if_pos hall, if_pos hall]
      · rw [if_neg hall, if_neg hall]
        have hk := keepList_length_lt idxs.length (solFromLists idxs G b) hall
        have hrec := ih fuel2
          ((keepList idxs.length (solFromLists idxs G b)).map
            fun i => idxs.getD i 0)
          ((keepList idxs.length (solFromLists idxs G b)).map
            fun i => (keepList idxs.length (solFromLists idxs G b)).map
              fun j => (G.getD i []).getD j 0)
          ((keepList idxs.length (solFromLists idxs G b)).map
            fun i => b.getD i 0)
          (by simpa using Nat.lt_of_lt_of_le hk (Nat.lt_succ_iff.mp h1))
          (by simpa using Nat.lt_of_lt_of_le hk (Nat.lt_succ_iff.mp h2))
        rw [hrec]

lemma activeSetLoop_sol_nonneg :
    ∀ (fuel : ℕ) (idxs : List ℕ) (G : List (List ℚ)) (b : List ℚ)
      (pr : List ℕ × List ℚ),
    (activeSetLoop fuel idxs G b).2 = some pr → ∀ x ∈ pr.2, 0 ≤ x := by
  intro fuel
  induction fuel with
  | zero => intro idxs G b pr h; exact absurd h (by simp [activeSetLoop])
  | succ fuel ih =>
    intro idxs G b pr h
    rw [activeSetLoop] at h
    by_cases he : idxs.isEmpty
    · rw [if_pos he] at h
      exact absurd h (by simp)
    · rw [if_neg he] at h
      dsimp only at h
      by_cases hall :
          ((List.range idxs.length).all (solOk (solFromLists idxs G b))) = true
      · rw [if_pos hall] at h
        have hpr : pr = (idxs, solFromLists idxs G b) := (Option.some.inj h).symm
        rw [hpr]
        intro x hx
        obtain ⟨i, hi, hix⟩ := List.mem_iff_getElem.mp hx
        have him : i < idxs.length := by
          rw [← solFromLists_length idxs G b]
          exact hi
        have hall2 := List.all_eq_true.mp hall i (by simpa using him)
        rw [solOk, decide_eq_true_eq] at hall2
        rw [List.getD_eq_getElem _ 0 hi, hix] at hall2
        exact not_lt.mp hall2
      · rw [if_neg hall] at h
        exact ih _ _ _ pr h

/-- C6.  On an active set of `m` products the negative-component removal
loop performs at most `m` solve passes (each removal round strictly
shrinks the subset, so the `m + 1` fuel of the embedding is never
exhausted and adding fuel does not change the result), and it stops only
in one of two states: no solution (`none`, the emptied-subset outcome) or
a solution all of whose gram increments are nonnegative — so every
increment the solver hands to the driver is nonnegative. -/
theorem active_set_solver_terminates (idxs : List ℕ) (G : List (List ℚ))
    (b : List ℚ) :
    (activeSetSolve idxs G b).1 ≤ idxs.length
      ∧ (∀ extra, activeSetLoop (idxs.length + 1 + extra) idxs G b
          = activeSetSolve idxs G b)
      ∧ ((activeSetSolve idxs G b).2 = none ∨
          ∃ pr, (activeSetSolve idxs G b).2 = some pr ∧ ∀ x ∈ pr.2, 0 ≤ x) := by
  refine ⟨activeSetLoop_rounds_le _ idxs G b (Nat.lt_succ_self _), ?_, ?_⟩
  · intro extra
    exact activeSetLoop_fuel_stable _ _ idxs G b (by omega) (Nat.lt_succ_self _)
  · rcases hres : (activeSetSolve idxs G b).2 with _ | pr
    · exact Or.inl rfl
    · exact Or.inr ⟨pr, rfl, activeSetLoop_sol_nonneg _ idxs G b pr hres⟩

/-- Witness for C6 on the concrete one-product system `G = [[1]]`,
`b = [1]`: at most one solve pass. -/
theorem active_set_solver_terminates_witness :
    (activeSetSolve [0] [[1]] [1]).1 ≤ ([0] : List ℕ).length :=
  (active_set_solver_terminates [0] [[1]] [1]).1

/-! ## C1: bounds and step-multiple discipline of assigned weights -/

lemma applyIncrement_le_or (g r s : ℚ) :
    applyIncrement g r s = 0 ∨ applyIncrement g r s ≤ r := by
  rw [applyIncrement]
  dsimp only
  by_cases h1 : g ≤ 0
  · rw [if_pos h1]; exact Or.inl rfl
  rw [if_neg h1]
  by_cases h2 : r ≤ 0
  · rw [if_pos h2]; exact Or.inl rfl
  rw [if_neg h2]
  set g1 := if r < g then r else g with hg1
  have hg1r : g1 ≤ r := by
    rw [hg1]
    split_ifs with h
    · exact le_rfl
    · exact le_of_not_lt h
  by_cases h3 : 0 < s
  · rw [if_pos h3]
    by_cases h4 : r < ((jsRound (g1 / s) : ℤ) : ℚ) * s
    · rw [if_pos h4]
      by_cases h5 : ((⌊r / s⌋ : ℤ) : ℚ) * s < 0
      · rw [if_pos h5]; exact Or.inl rfl
      · rw [if_neg h5]
        refine Or.inr ?_
        have hf := Int.floor_le (r / s)
        calc ((⌊r / s⌋ : ℤ) : ℚ) * s ≤ r / s * s :=
              mul_le_mul_of_nonneg_right hf (le_of_lt h3)
          _ = r := div_mul_cancel₀ r (ne_of_gt h3)
    · rw [if_neg h4]
      by_cases h5 : ((jsRound (g1 / s) : ℤ) : ℚ) * s < 0
      · rw [if_pos h5]; exact Or.inl rfl
      · rw [if_neg h5]; exact Or.inr (not_lt.mp h4)
  · rw [if_neg h3]; exact Or.inr hg1r

lemma applyIncrement_mult (g r s : ℚ) (hs : 0 < s) :
    ∃ n : ℤ, applyIncrement g r s = n * s := by
  rw [applyIncrement]
  dsimp only
  by_cases h1 : g ≤ 0
  · rw [if_pos h1]; exact ⟨0, by ring⟩
  rw [if_neg h1]
  by_cases h2 : r ≤ 0
  · rw [if_pos h2]; exact ⟨0, by ring⟩
  rw [if_neg h2]
  set g1 := if r < g then r else g with hg1
  rw [if_pos hs]
  by_cases h4 : r < ((jsRound (g1 / s) : ℤ) : ℚ) * s
  · rw [if_pos h4]
    by_cases h5 : ((⌊r / s⌋ : ℤ) : ℚ) * s < 0
    · rw [if_pos h5]; exact ⟨0, by ring⟩
    · rw [if_neg h5]; exact ⟨⌊r / s⌋, rfl⟩
  · rw [if_neg h4]
    by_cases h5 : ((jsRound (g1 / s) : ℤ) : ℚ) * s < 0
    · rw [if_pos h5]; exact ⟨0, by ring⟩
    · rw [if_neg h5]; exact ⟨jsRound (g1 / s), rfl⟩

lemma maxOf_nonneg (prods : List Product)
    (hmax : ∀ p ∈ prods, 0 ≤ p.max_weight) (idx : ℕ) :
    0 ≤ maxOf prods idx := by
  rw [maxOf]
  rcases lt_or_ge idx prods.length with hi | hi
  · rw [List.getD_eq_getElem prods defaultProduct hi]
    exact hmax _ (List.getElem_mem hi)
  · rw [List.getD_eq_default prods defaultProduct hi]
    exact le_refl 0

/-- The per-product invariant of one trial: every assigned weight lies in
`[0, maxWeight]` and, for a positive step size, is an integer multiple of
the step. -/
def WeightInv (prods : List Product) (va : ℕ → ℚ) : Prop :=
  ∀ idx, 0 ≤ va idx ∧ va idx ≤ maxOf prods idx ∧
    (0 < stepOf prods idx → ∃ n : ℤ, va idx = n * stepOf prods idx)

lemma applyOne_weightInv (prods : List Product) (st : ApplyState)
    (pr : ℕ × ℚ) (hI : WeightInv prods st.varAdd) :
    WeightInv prods (applyOne prods st pr).varAdd := by
  rw [applyOne]
  by_cases hg : applyIncrement pr.2 (maxOf prods pr.1 - st.varAdd pr.1)
      (stepOf prods pr.1) ≤ 0
  · rw [if_pos hg]; exact hI
  · rw [if_neg hg]
    intro idx
    by_cases hidx : idx = pr.1
    · rw [hidx]
      dsimp only
      rw [if_pos rfl]
      have hgpos : 0 < applyIncrement pr.2 (maxOf prods pr.1 - st.varAdd pr.1)
          (stepOf prods pr.1) := lt_of_not_le hg
      have hle : applyIncrement pr.2 (maxOf prods pr.1 - st.varAdd pr.1)
          (stepOf prods pr.1) ≤ maxOf prods pr.1 - st.varAdd pr.1 := by
        rcases applyIncrement_le_or pr.2 (maxOf prods pr.1 - st.varAdd pr.1)
            (stepOf prods pr.1) with h0 | h0
        · rw [h0] at hgpos; exact absurd hgpos (lt_irrefl 0)
        · exact h0
      obtain ⟨h0, -, hmul⟩ := hI pr.1
      refine ⟨by linarith, by linarith, ?_⟩
      intro hstep
      obtain ⟨n, hn⟩ := hmul hstep
      obtain ⟨m, hm⟩ := applyIncrement_mult pr.2
        (maxOf prods pr.1 - st.varAdd pr.1) (stepOf prods pr.1) hstep
      exact ⟨n + m, by rw [hm, hn]; push_cast; ring⟩
    · dsimp only
      rw [if_neg hidx]
      exact hI idx

lemma applyAll_weightInv (prods : List Product) (pairs : List (ℕ × ℚ)) :
    ∀ st : ApplyState, WeightInv prods st.varAdd →
    WeightInv prods (pairs.foldl (applyOne prods) st).varAdd := by
  induction pairs with
  | nil => intro st h; exact h
  | cons pr pairs ih =>
    intro st h
    rw [List.foldl_cons]
    exact ih _ (applyOne_weightInv prods st pr h)

lemma driverStep_weightInv (alpha : ℚ) (s : DriverState)
    (hI : WeightInv s.products s.varAdd) :
    WeightInv s.products (driverStep alpha s).state.varAdd := by
  rw [driverStep]
  split
  · exact hI
  · dsimp only
    split
    · exact hI
    · split
      · exact applyAll_weightInv s.products _
          { varAdd := s.varAdd, residVec := s.residVec, anyPositive := false } hI
      · exact applyAll_weightInv s.products _
          { varAdd := s.varAdd, residVec := s.residVec, anyPositive := false } hI

lemma driverLoop_weightInv (alpha : ℚ) (fuel : ℕ) (s : DriverState)
    (hI : WeightInv s.products s.varAdd) :
    WeightInv s.products (driverLoop alpha fuel s).varAdd := by
  induction fuel generalizing s with
  | zero => exact hI
  | succ fuel ih =>
    rw [driverLoop]
    split
    · exact hI
    · rcases h : driverStep alpha s with s2 | s2
      · have := driverStep_weightInv alpha s hI
        rw [h] at this
        exact this
      · have h1 : WeightInv s.products s2.varAdd := by
          have := driverStep_weightInv alpha s hI
          rw [h] at this
          exact this
        have h2 : s2.products = s.products := by
          have := driverStep_state_products alpha s
          rw [h] at this
          exact this
        have h3 := ih s2 (by rw [h2]; exact h1)
        show WeightInv s.products (driverLoop alpha fuel s2).varAdd
        rw [← h2]
        exact h3

/-- C1.  After any trial of the refinement driver — any products with the
catalog's nonnegative maximum weights, any index list, residual, pacing
`alpha ∈ (0,1]` and iteration cap — every product's final assigned weight
satisfies `0 ≤ assigned ≤ maxWeight`, and whenever the product's step size
is positive the assigned weight is an integer multiple of the step. -/
theorem assigned_weight_bounds (prods : List Product) (varIdxs : List ℕ)
    (resid : NutKey → ℚ) (alpha : ℚ) (maxIter : ℕ)
    (hmax : ∀ p ∈ prods, 0 ≤ p.max_weight) (ha0 : 0 < alpha)
    (ha1 : alpha ≤ 1) :
    ∀ idx,
      0 ≤ run_iterative_optimization prods varIdxs resid alpha maxIter idx
        ∧ run_iterative_optimization prods varIdxs resid alpha maxIter idx
            ≤ maxOf prods idx
        ∧ (0 < stepOf prods idx →
            ∃ n : ℤ, run_iterative_optimization prods varIdxs resid alpha
              maxIter idx = n * stepOf prods idx) := by
  have hinit : WeightInv prods (initState prods varIdxs resid).varAdd := by
    intro idx
    exact ⟨le_refl 0, maxOf_nonneg prods hmax idx,
      fun _ => ⟨0, by simp [initState]⟩⟩
  have h := driverLoop_weightInv alpha maxIter (initState prods varIdxs resid)
    hinit
  exact h

/-- Witness for C1 on the one-product catalog with step 25 and maximum
weight 100, at `alpha = 1/2`, index 0: the final weight is in range and a
step multiple. -/
theorem assigned_weight_bounds_witness :
    0 ≤ run_iterative_optimization
          [⟨"w", fun _ => 1, 25, 100⟩] [0] (fun _ => 1) (1/2) 10 0
      ∧ run_iterative_optimization
          [⟨"w", fun _ => 1, 25, 100⟩] [0] (fun _ => 1) (1/2) 10 0
          ≤ maxOf [⟨"w", fun _ => 1, 25, 100⟩] 0
      ∧ ∃ n : ℤ, run_iterative_optimization
          [⟨"w", fun _ => 1, 25, 100⟩] [0] (fun _ => 1) (1/2) 10 0
          = n * stepOf [⟨"w", fun _ => 1, 25, 100⟩] 0 := by
  have h := assigned_weight_bounds [⟨"w", fun _ => 1, 25, 100⟩] [0]
    (fun _ => 1) (1/2) 10
    (by intro p hp; rw [List.mem_singleton] at hp; rw [hp]; norm_num)
    (by norm_num) (by norm_num) 0
  exact ⟨h.1, h.2.1, h.2.2 (by norm_num [stepOf, List.getD])⟩

/-! ## C3 (amended): residual components never increase within a trial -/

lemma nutOf_nonneg (prods : List Product)
    (hnut : ∀ p ∈ prods, ∀ k, 0 ≤ p.nutrients k) (idx : ℕ) (k : NutKey) :
    0 ≤ nutOf prods idx k := by
  rw [nutOf]
  rcases lt_or_ge idx prods.length with hi | hi
  · rw [List.getD_eq_getElem prods defaultProduct hi]
    exact hnut _ (List.getElem_mem hi) k
  · rw [List.getD_eq_default prods defaultProduct hi]
    exact le_refl 0

lemma applyOne_resid_mono (prods : List Product) (st : ApplyState)
    (pr : ℕ × ℚ) (hnut : ∀ idx k, 0 ≤ nutOf prods idx k) (k : NutKey) :
    (applyOne prods st pr).residVec k ≤ st.residVec k := by
  rw [applyOne]
  by_cases hg : applyIncrement pr.2 (maxOf prods pr.1 - st.varAdd pr.1)
      (stepOf prods pr.1) ≤ 0
  · rw [if_pos hg]
  · rw [if_neg hg]
    dsimp only
    have hgpos : 0 < applyIncrement pr.2 (maxOf prods pr.1 - st.varAdd pr.1)
        (stepOf prods pr.1) := lt_of_not_le hg
    have hn := hnut pr.1 k
    nlinarith

lemma applyAll_resid_mono (prods : List Product) (pairs : List (ℕ × ℚ))
    (hnut : ∀ idx k, 0 ≤ nutOf prods idx k) :
    ∀ (st : ApplyState) (k : NutKey),
    (pairs.foldl (applyOne prods) st).residVec k ≤ st.residVec k := by
  induction pairs with
  | nil => intro st k; exact le_refl _
  | cons pr pairs ih =>
    intro st k
    rw [List.foldl_cons]
    exact le_trans (ih (applyOne prods st pr) k)
      (applyOne_resid_mono prods st pr hnut k)

lemma driverStep_resid_mono (alpha : ℚ) (s : DriverState)
    (hnut : ∀ idx k, 0 ≤ nutOf s.products idx k) (k : NutKey) :
    (driverStep alpha s).state.residVec k ≤ s.residVec k := by
  rw [driverStep]
  split
  · exact le_refl _
  · dsimp only
    split
    · exact le_refl _
    · split
      · exact applyAll_resid_mono s.products _ hnut
          { varAdd := s.varAdd, residVec := s.residVec, anyPositive := false } k
      · exact applyAll_resid_mono s.products _ hnut
          { varAdd := s.varAdd, residVec := s.residVec, anyPositive := false } k

lemma driverLoop_resid_mono (alpha : ℚ) (fuel : ℕ) (s : DriverState)
    (hnut : ∀ idx k, 0 ≤ nutOf s.products idx k) (k : NutKey) :
    (driverLoop alpha fuel s).residVec k ≤ s.residVec k := by
  induction fuel generalizing s with
  | zero => exact le_refl _
  | succ fuel ih =>
    rw [driverLoop]
    split
    · exact le_refl _
    · rcases h : driverStep alpha s with s2 | s2
      · have := driverStep_resid_mono alpha s hnut k
        rw [h] at this
        exact this
      · have h1 : s2.residVec k ≤ s.residVec k := by
          have := driverStep_resid_mono alpha s hnut k
          rw [h] at this
          exact this
        have h2 : s2.products = s.products := by
          have := driverStep_state_products alpha s
          rw [h] at this
          exact this
        have h3 := ih s2 (by rw [h2]; exact hnut)
        exact le_trans h3 h1

/-- C3 (amended).  Within a single trial of the refinement driver, when
every product's nutrient content is nonnegative, every residual component
is non-increasing: each driver pass only subtracts the nonnegative
contributions of the positive applied increments, both step by step and
over a whole run.  (The claim's sum-of-squares version is refuted by the
counterexample below: an increment rounded half-up can overshoot and grow
the squared norm.) -/
theorem residual_componentwise_monotone (alpha : ℚ) :
    (∀ s : DriverState, (∀ p ∈ s.products, ∀ k, 0 ≤ p.nutrients k) →
        ∀ k, (driverStep alpha s).state.residVec k ≤ s.residVec k)
      ∧ (∀ (prods : List Product) (varIdxs : List ℕ) (resid : NutKey → ℚ)
          (maxIter : ℕ), (∀ p ∈ prods, ∀ k, 0 ≤ p.nutrients k) →
          ∀ k, (runDriver prods varIdxs resid alpha maxIter).residVec k
            ≤ resid k) := by
  constructor
  · intro s hp k
    exact driverStep_resid_mono alpha s (nutOf_nonneg s.products hp) k
  · intro prods varIdxs resid maxIter hp k
    exact driverLoop_resid_mono alpha maxIter (initState prods varIdxs resid)
      (nutOf_nonneg prods hp) k

/-- Witness for C3's amended statement on a concrete one-product state:
the protein residual does not increase over the run. -/
theorem residual_componentwise_monotone_witness :
    (runDriver [⟨"m", fun _ => 1, 1, 100⟩] [0] (fun _ => 2) 1 10).residVec
        .protein ≤ 2 :=
  (residual_componentwise_monotone 1).2 [⟨"m", fun _ => 1, 1, 100⟩] [0]
    (fun _ => 2) 10
    (by intro p hp k; rw [List.mem_singleton] at hp; rw [hp]; norm_num)
    .protein

/-! ## C4 (amended): a zero residual converges immediately -/

lemma getD_zero (l : List ℚ) (i : ℕ) (h : ∀ x ∈ l, x = 0) : l.getD i 0 = 0 := by
  rcases lt_or_ge i l.length with hi | hi
  · rw [List.getD_eq_getElem l 0 hi]
    exact h _ (List.getElem_mem hi)
  · rw [List.getD_eq_default l 0 hi]

lemma gramB_zero (rows : List (NutKey → ℚ)) (rv : NutKey → ℚ) (alpha : ℚ)
    (h0 : ∀ k, rv k = 0) : ∀ x ∈ gramB rows rv alpha, x = 0 := by
  intro x hx
  rw [gramB] at hx
  obtain ⟨ri, -, rfl⟩ := List.mem_map.mp hx
  apply List.sum_eq_zero
  intro y hy
  obtain ⟨k, -, rfl⟩ := List.mem_map.mp hy
  rw [h0 k]
  ring

lemma elimCol_zero_col (m : ℕ) (aug : ℕ → ℕ → ℚ) (col c0 : ℕ)
    (hc : ∀ i, aug i c0 = 0) : ∀ i, (elimCol m aug col).1 i c0 = 0 := by
  intro i
  rw [elimCol]
  by_cases hp : |aug (pivotIndex aug m col) col| < EPS
  · rw [if_pos hp]
    exact hc i
  · rw [if_neg hp]
    dsimp only
    split_ifs <;> simp [hc]

lemma elimAll_zero_col (m : ℕ) (aug : ℕ → ℕ → ℚ) (c0 : ℕ)
    (hc : ∀ i, aug i c0 = 0) : ∀ i, (elimAll m aug).1 i c0 = 0 := by
  rw [elimAll]
  generalize List.range m = cols
  suffices h : ∀ (cols : List ℕ) (st : (ℕ → ℕ → ℚ) × List ℚ),
      (∀ i, st.1 i c0 = 0) →
      ∀ i, (cols.foldl (elimStep m) st).1 i c0 = 0 by
    exact h cols (aug, []) hc
  intro cols
  induction cols with
  | nil => intro st hst; exact hst
  | cons c cols ih =>
    intro st hst
    rw [List.foldl_cons]
    refine ih (elimStep m st c) ?_
    intro i
    rw [elimStep]
    dsimp only
    exact elimCol_zero_col m st.1 c c0 hst i

lemma backSubAux_zero (m : ℕ) (aug : ℕ → ℕ → ℚ)
    (h : ∀ i, aug i m = 0) : ∀ c, ∀ x ∈ backSubAux m aug c, x = 0 := by
  intro c
  induction c with
  | zero => intro x hx; exact absurd hx (by simp [backSubAux])
  | succ c ih =>
    intro x hx
    rw [backSubAux] at hx
    rcases List.mem_cons.mp hx with rfl | hx2
    · rw [h]
      have hz : (((List.range' (m - (c + 1) + 1) c).zip (backSubAux m aug c)).map
          fun pr => aug (m - (c + 1)) pr.1 * pr.2).sum = 0 := by
        apply List.sum_eq_zero
        intro y hy
        obtain ⟨pr, hpr, rfl⟩ := List.mem_map.mp hy
        rw [ih pr.2 (List.of_mem_zip hpr).2]
        ring
      rw [hz]
      ring
    · exact ih x hx2

lemma solFromLists_zero (idxs : List ℕ) (G : List (List ℚ)) (b : List ℚ)
    (hb : ∀ x ∈ b, x = 0) : ∀ x ∈ solFromLists idxs G b, x = 0 := by
  rw [solFromLists]
  apply backSubAux_zero
  intro i
  have hcol : ∀ i2, (fun i3 j => if j = idxs.length then b.getD i3 0
      else (G.getD i3 []).getD j 0) i2 idxs.length = 0 := by
    intro i2
    dsimp only
    rw [if_pos rfl]
    exact getD_zero b i2 hb
  exact elimAll_zero_col idxs.length _ idxs.length hcol i

lemma activeSetSolve_zero_b (idxs : List ℕ) (G : List (List ℚ)) (b : List ℚ)
    (hb : ∀ x ∈ b, x = 0) (hne : ¬ idxs.isEmpty = true) :
    (activeSetSolve idxs G b).2 = some (idxs, solFromLists idxs G b) := by
  rw [activeSetSolve, activeSetLoop, if_neg hne]
  dsimp only
  rw [if_pos ?_]
  apply List.all_eq_true.mpr
  intro i _
  rw [solOk, decide_eq_true_eq,
    getD_zero _ i (solFromLists_zero idxs G b hb)]
  exact lt_irrefl 0

lemma applyIncrement_nonpos (g r s : ℚ) (hg : g ≤ 0) :
    applyIncrement g r s = 0 := by
  rw [applyIncrement, if_pos hg]

lemma applyAll_nonpos (prods : List Product) (pairs : List (ℕ × ℚ))
    (hz : ∀ pr ∈ pairs, pr.2 ≤ 0) :
    ∀ st : ApplyState, pairs.foldl (applyOne prods) st = st := by
  induction pairs with
  | nil => intro st; rfl
  | cons pr pairs ih =>
    intro st
    rw [List.foldl_cons]
    have h1 : applyOne prods st pr = st := by
      rw [applyOne]
      rw [applyIncrement_nonpos _ _ _ (hz pr (List.mem_cons_self pr pairs))]
      rw [if_pos (le_refl 0)]
    rw [h1]
    exact (ih fun pr2 h => hz pr2 (List.mem_cons.mpr (Or.inr h))) st

lemma driverStep_zero_resid (alpha : ℚ) (s : DriverState)
    (h0 : ∀ k, s.residVec k = 0) :
    (driverStep alpha s).state.varAdd = s.varAdd
      ∧ (driverStep alpha s).state.residVec = s.residVec
      ∧ (driverStep alpha s).state.iteration = s.iteration
      ∧ ∃ s2, driverStep alpha s = .halt s2 := by
  by_cases hact : (eligibleFilter s).isEmpty
  · rw [driverStep, if_pos hact]
    exact ⟨rfl, rfl, rfl, _, rfl⟩
  · have hb := gramB_zero (activeRows s.products (eligibleFilter s))
      s.residVec alpha h0
    have hsol := activeSetSolve_zero_b (eligibleFilter s)
      (gramG (activeRows s.products (eligibleFilter s)))
      (gramB (activeRows s.products (eligibleFilter s)) s.residVec alpha)
      hb hact
    have hzip : ∀ pr ∈ (eligibleFilter s).zip
        (solFromLists (eligibleFilter s)
          (gramG (activeRows s.products (eligibleFilter s)))
          (gramB (activeRows s.products (eligibleFilter s)) s.residVec alpha)),
        pr.2 ≤ 0 := by
      intro pr hpr
      rw [solFromLists_zero _ _ _ hb pr.2 (List.of_mem_zip hpr).2]
    have hap : applyAll s.products ((eligibleFilter s).zip
        (solFromLists (eligibleFilter s)
          (gramG (activeRows s.products (eligibleFilter s)))
          (gramB (activeRows s.products (eligibleFilter s)) s.residVec alpha)))
        s.varAdd s.residVec
        = { varAdd := s.varAdd, residVec := s.residVec,
            anyPositive := false } := by
      rw [applyAll]
      exact applyAll_nonpos s.products _ hzip _
    rw [driverStep, if_neg hact]
    dsimp only
    rw [hsol]
    dsimp only
    rw [hap]
    exact ⟨rfl, rfl, rfl, _, rfl⟩

lemma driverLoop_zero_resid (alpha : ℚ) (fuel : ℕ) (s : DriverState)
    (h0 : ∀ k, s.residVec k = 0) :
    (driverLoop alpha fuel s).varAdd = s.varAdd
      ∧ (driverLoop alpha fuel s).residVec = s.residVec
      ∧ (driverLoop alpha fuel s).iteration = s.iteration := by
  rcases fuel with _ | fuel
  · exact ⟨rfl, rfl, rfl⟩
  · rw [driverLoop]
    by_cases hae : s.active.isEmpty
    · rw [if_pos hae]
      exact ⟨rfl, rfl, rfl⟩
    · rw [if_neg hae]
      obtain ⟨h1, h2, h3, s2, hs2⟩ := driverStep_zero_resid alpha s h0
      rw [hs2] at h1 h2 h3 ⊢
      exact ⟨h1, h2, h3⟩

/-- C4 (amended).  When every component of the residual is exactly zero
at entry (in particular for the all-zeros target of Scenario B), the
driver converges immediately: zero refinement iterations are counted, no
assigned weight is increased (every returned increment is 0), and for the
all-zeros target `evaluate_diet` reports error sum 0, i.e. RMSE
`sqrt(0/8) = 0`. -/
theorem zero_residual_immediate_convergence (prods : List Product)
    (varIdxs : List ℕ) (resid : NutKey → ℚ) (alpha : ℚ) (maxIter : ℕ)
    (h0 : ∀ k, resid k = 0) :
    (runDriver prods varIdxs resid alpha maxIter).iteration = 0
      ∧ (∀ idx, run_iterative_optimization prods varIdxs resid alpha maxIter
          idx = 0)
      ∧ (evaluate_diet prods varIdxs (fun _ => 0) alpha).errSum = 0
      ∧ Real.sqrt
          (((evaluate_diet prods varIdxs (fun _ => 0) alpha).errSum : ℝ)
            / ((evaluate_diet prods varIdxs (fun _ => 0) alpha).nKeys : ℝ))
          = 0 := by
  have hrun := driverLoop_zero_resid alpha maxIter
    (initState prods varIdxs resid) h0
  have hva : ∀ (p2 : List Product) (v2 : List ℕ),
      ∀ idx, run_iterative_optimization p2 v2 (fun _ => (0:ℚ)) alpha 10 idx
        = 0 := by
    intro p2 v2 idx
    have h := driverLoop_zero_resid alpha 10 (initState p2 v2 fun _ => 0)
      fun _ => rfl
    show (driverLoop alpha 10 (initState p2 v2 fun _ => 0)).varAdd idx = 0
    rw [h.1]
    rfl
  have htot : ∀ k, dietTotals prods varIdxs
      (run_iterative_optimization prods varIdxs (fun _ => 0) alpha 10) k
        = 0 := by
    have hz : ∀ (l : List ℕ) (tot : NutKey → ℚ),
        l.foldl (addTotals prods
          (run_iterative_optimization prods varIdxs (fun _ => 0) alpha 10))
          tot = tot := by
      intro l
      induction l with
      | nil => intro tot; rfl
      | cons idx l ih =>
        intro tot
        rw [List.foldl_cons]
        have : addTotals prods
            (run_iterative_optimization prods varIdxs (fun _ => 0) alpha 10)
            tot idx = tot := by
          rw [addTotals, if_neg]
          rw [hva prods varIdxs idx]
          exact lt_irrefl 0
        rw [this]
        exact ih tot
    intro k
    rw [dietTotals, hz varIdxs]
  have herr : (evaluate_diet prods varIdxs (fun _ => 0) alpha).errSum = 0 := by
    show scoreErrSum (fun _ => 0) (dietTotals prods varIdxs
      (run_iterative_optimization prods varIdxs (fun _ => 0) alpha 10)) = 0
    apply List.sum_eq_zero
    intro y hy
    obtain ⟨k, -, rfl⟩ := List.mem_map.mp hy
    rw [htot k]
    ring
  refine ⟨?_, ?_, herr, ?_⟩
  · show (driverLoop alpha maxIter (initState prods varIdxs resid)).iteration
      = 0
    rw [hrun.2.2]
    rfl
  · intro idx
    show (driverLoop alpha maxIter
      (initState prods varIdxs resid)).varAdd idx = 0
    rw [hrun.1]
    rfl
  · rw [herr]
    simp

/-- Witness for C4's amended statement: the empty catalog with the
all-zero residual counts zero iterations. -/
theorem zero_residual_immediate_convergence_witness :
    (runDriver [] [] (fun _ => 0) 1 10).iteration = 0 :=
  (zero_residual_immediate_convergence [] [] (fun _ => 0) 1 10
    fun _ => rfl).1

/-- Witness for C5 at `startAlpha = 100`, `runsPerAlpha = 0`: exactly one
trial runs (Scenario E with the zero repeat count treated as one). -/
theorem search_controller_spec_witness :
    (trialList 100 0).length = (101 - 100) * max 1 0 :=
  (search_controller_spec 100 0 (by norm_num) (by norm_num) (by norm_num)).1


/-! ## Counterexamples: rounding overshoot grows the squared residual, and
a nonpositive residual does not guarantee immediate convergence -/

/-- One unfolding of the driver loop (definitional). -/
lemma driverLoop_succ (alpha : ℚ) (fuel : ℕ) (s : DriverState) :
    driverLoop alpha (Nat.succ fuel) s =
      if s.active.isEmpty then s
      else
        match driverStep alpha s with
        | .halt s2 => s2
        | .cont s2 => driverLoop alpha fuel s2 := rfl

/-- Product of the C3 counterexample: 100 g of protein and 100 kcal per
100 g, step size 1.1 g, maximum weight 1000 g. -/
def cexProd : Product :=
  ⟨"P", fun k => match k with
    | .protein => 100 | .calories => 100 | _ => 0, 11 / 10, 1000⟩

/-- Residual of the C3 counterexample: 1 kcal missing, all else met. -/
def cexResid : NutKey → ℚ := fun k => match k with
  | .calories => 1 | _ => 0

/-- Unweighted sum of squared residual components. -/
def ssqResid (r : NutKey → ℚ) : ℚ := (NUT_KEYS.map fun k => r k * r k).sum

/-- Counterexample to C3 as stated.  With the single product `cexProd`,
residual 1 kcal and `alpha = 1`, the continuous solve asks for 0.6 g, the
half-up rounding bumps it to one 1.1 g step, and the applied increment
overshoots: the iteration applies a positive increment (1.1 g, iteration
counter 1) yet the sum of squared residual components grows from 1 to
61/50. -/
theorem residual_ssq_increase_cex :
    (runDriver [cexProd] [0] cexResid 1 1).iteration = 1
      ∧ (runDriver [cexProd] [0] cexResid 1 1).varAdd 0 = 11 / 10
      ∧ ssqResid cexResid = 1
      ∧ ssqResid (runDriver [cexProd] [0] cexResid 1 1).residVec = 61 / 50 := by
  have h1 : eligibleFilter (initState [cexProd] [0] cexResid) = [0] := by
    norm_num [eligibleFilter, initState, stepOf, maxOf, cexProd]
  have hG : gramG (activeRows [cexProd] [0]) = [[5]] := by
    norm_num [gramG, activeRows, contribRow, cexProd, NUT_KEYS, WEIGHTS]
  have hb : gramB (activeRows [cexProd] [0]) cexResid 1 = [3] := by
    norm_num [gramB, activeRows, contribRow, cexProd, cexResid, NUT_KEYS,
      WEIGHTS]
  have hsolve : (activeSetSolve [0] [[5]] [3]).2 = some ([0], [3/5]) := by
    norm_num [activeSetSolve, activeSetLoop, solFromLists, backSub, backSubAux,
      elimAll, elimStep, elimCol, pivotIndex, EPS, solOk, List.range',
      List.range_succ, List.range_zero]
  have ha_any : (applyAll [cexProd] [(0, 3/5)] (fun _ => 0)
      cexResid).anyPositive = true := by
    norm_num [applyAll, applyOne, applyIncrement, jsRound, stepOf, maxOf,
      nutOf, cexProd]
  have ha_va : (applyAll [cexProd] [(0, 3/5)] (fun _ => 0)
      cexResid).varAdd 0 = 11 / 10 := by
    norm_num [applyAll, applyOne, applyIncrement, jsRound, stepOf, maxOf,
      nutOf, cexProd]
  have ha_ssq : ssqResid ((applyAll [cexProd] [(0, 3/5)] (fun _ => 0)
      cexResid).residVec) = 61 / 50 := by
    norm_num [applyAll, applyOne, applyIncrement, jsRound, stepOf, maxOf,
      nutOf, cexProd, cexResid, ssqResid, NUT_KEYS]
  have hstep : driverStep 1 (initState [cexProd] [0] cexResid) = .cont
      { products := [cexProd], callerResid := cexResid,
        residVec := (applyAll [cexProd] [(0, 3/5)] (fun _ => 0)
          cexResid).residVec,
        varAdd := (applyAll [cexProd] [(0, 3/5)] (fun _ => 0)
          cexResid).varAdd,
        active := [0], iteration := 1 } := by
    rw [driverStep, h1]
    rw [if_neg (by norm_num)]
    dsimp only
    have hpr : (initState [cexProd] [0] cexResid).products = [cexProd] := rfl
    have hrv : (initState [cexProd] [0] cexResid).residVec = cexResid := rfl
    have hva : (initState [cexProd] [0] cexResid).varAdd
        = fun _ : ℕ => (0:ℚ) := rfl
    rw [hpr, hrv, hva, hG, hb, hsolve]
    dsimp only
    rw [show ([0].zip [(3:ℚ)/5]) = [(0, 3/5)] from rfl]
    rw [ha_any]
    rfl
  have hfin : runDriver [cexProd] [0] cexResid 1 1
      = (driverStep 1 (initState [cexProd] [0] cexResid)).state := by
    rw [runDriver, driverLoop]
    rw [if_neg (by norm_num [initState])]
    rcases h : driverStep 1 (initState [cexProd] [0] cexResid) with s2 | s2
    · rfl
    · rfl
  rw [hfin, hstep]
  refine ⟨rfl, ha_va, ?_, ha_ssq⟩
  norm_num [ssqResid, cexResid, NUT_KEYS]

/-- Product of the C4 counterexample: negative protein content. -/
def negProd : Product :=
  ⟨"N", fun k => match k with
    | .protein => -100 | _ => 0, 1, 100⟩

/-- Residual of the C4 counterexample: every component nonpositive. -/
def negResid : NutKey → ℚ := fun k => match k with
  | .protein => -1 | _ => 0

/-- Counterexample to C4 as stated.  With the product `negProd` (protein
content -100 per 100 g) and the entry residual `negResid` whose every
component is nonpositive, the driver does not converge immediately: it
counts one iteration and raises the assigned weight of product 0 to 1
gram. -/
theorem nonpositive_residual_cex :
    (NUT_KEYS.all fun k => decide (negResid k ≤ 0)) = true
      ∧ (runDriver [negProd] [0] negResid 1 10).iteration = 1
      ∧ run_iterative_optimization [negProd] [0] negResid 1 10 0 = 1 := by
  have h1 : eligibleFilter (initState [negProd] [0] negResid) = [0] := by
    norm_num [eligibleFilter, initState, stepOf, maxOf, negProd]
  have hG : gramG (activeRows [negProd] [0]) = [[2]] := by
    norm_num [gramG, activeRows, contribRow, negProd, NUT_KEYS, WEIGHTS]
  have hb : gramB (activeRows [negProd] [0]) negResid 1 = [2] := by
    norm_num [gramB, activeRows, contribRow, negProd, negResid, NUT_KEYS,
      WEIGHTS]
  have hsolve : (activeSetSolve [0] [[2]] [2]).2 = some ([0], [1]) := by
    norm_num [activeSetSolve, activeSetLoop, solFromLists, backSub, backSubAux,
      elimAll, elimStep, elimCol, pivotIndex, EPS, solOk, List.range',
      List.range_succ, List.range_zero]
  have ha_any : (applyAll [negProd] [(0, 1)] (fun _ => 0)
      negResid).anyPositive = true := by
    norm_num [applyAll, applyOne, applyIncrement, jsRound, stepOf, maxOf,
      nutOf, negProd]
  have ha_va : (applyAll [negProd] [(0, 1)] (fun _ => 0)
      negResid).varAdd 0 = 1 := by
    norm_num [applyAll, applyOne, applyIncrement, jsRound, stepOf, maxOf,
      nutOf, negProd]
  have hstep1 : driverStep 1 (initState [negProd] [0] negResid) = .cont
      { products := [negProd], callerResid := negResid,
        residVec := (applyAll [negProd] [(0, 1)] (fun _ => 0)
          negResid).residVec,
        varAdd := (applyAll [negProd] [(0, 1)] (fun _ => 0)
          negResid).varAdd,
        active := [0], iteration := 1 } := by
    rw [driverStep, h1]
    rw [if_neg (by norm_num)]
    dsimp only
    have hpr : (initState [negProd] [0] negResid).products = [negProd] := rfl
    have hrv : (initState [negProd] [0] negResid).residVec = negResid := rfl
    have hva : (initState [negProd] [0] negResid).varAdd
        = fun _ : ℕ => (0:ℚ) := rfl
    rw [hpr, hrv, hva, hG, hb, hsolve]
    dsimp only
    rw [show ([0].zip [(1:ℚ)]) = [(0, 1)] from rfl]
    rw [ha_any]
    rfl
  have hS1elig : eligibleFilter
      { products := [negProd], callerResid := negResid,
        residVec := (applyAll [negProd] [(0, 1)] (fun _ => 0)
          negResid).residVec,
        varAdd := (applyAll [negProd] [(0, 1)] (fun _ => 0)
          negResid).varAdd,
        active := [0], iteration := 1 } = [0] := by
    norm_num [eligibleFilter, stepOf, maxOf, negProd, applyAll, applyOne,
      applyIncrement, jsRound, nutOf]
  have hb2 : gramB (activeRows [negProd] [0])
      ((applyAll [negProd] [(0, 1)] (fun _ => 0) negResid).residVec) 1
      = [0] := by
    norm_num [gramB, activeRows, contribRow, negProd, negResid, NUT_KEYS,
      WEIGHTS, applyAll, applyOne, applyIncrement, jsRound, stepOf, maxOf,
      nutOf]
  have hsolve2 : (activeSetSolve [0] [[2]] [0]).2 = some ([0], [0]) := by
    norm_num [activeSetSolve, activeSetLoop, solFromLists, backSub, backSubAux,
      elimAll, elimStep, elimCol, pivotIndex, EPS, solOk, List.range',
      List.range_succ, List.range_zero]
  have ha2_any : (applyAll [negProd] [(0, 0)]
      ((applyAll [negProd] [(0, 1)] (fun _ => 0) negResid).varAdd)
      ((applyAll [negProd] [(0, 1)] (fun _ => 0) negResid).residVec)
      ).anyPositive = false := by
    rw [applyAll, List.foldl_cons, List.foldl_nil, applyOne]
    rw [applyIncrement_nonpos _ _ _ (le_refl 0)]
    rw [if_pos (le_refl (0:ℚ))]
  have hstep2 : driverStep 1
      { products := [negProd], callerResid := negResid,
        residVec := (applyAll [negProd] [(0, 1)] (fun _ => 0)
          negResid).residVec,
        varAdd := (applyAll [negProd] [(0, 1)] (fun _ => 0)
          negResid).varAdd,
        active := [0], iteration := 1 }
      = .halt
      { products := [negProd], callerResid := negResid,
        residVec := (applyAll [negProd] [(0, 0)]
          ((applyAll [negProd] [(0, 1)] (fun _ => 0) negResid).varAdd)
          ((applyAll [negProd] [(0, 1)] (fun _ => 0) negResid).residVec)
          ).residVec,
        varAdd := (applyAll [negProd] [(0, 0)]
          ((applyAll [negProd] [(0, 1)] (fun _ => 0) negResid).varAdd)
          ((applyAll [negProd] [(0, 1)] (fun _ => 0) negResid).residVec)
          ).varAdd,
        active := [0], iteration := 1 } := by
    rw [driverStep, hS1elig]
    rw [if_neg (by norm_num)]
    dsimp only
    rw [hG, hb2, hsolve2]
    dsimp only
    rw [show ([0].zip [(0:ℚ)]) = [(0, 0)] from rfl]
    rw [ha2_any]
    rfl
  have hfin : runDriver [negProd] [0] negResid 1 10
      = { products := [negProd], callerResid := negResid,
          residVec := (applyAll [negProd] [(0, 0)]
            ((applyAll [negProd] [(0, 1)] (fun _ => 0) negResid).varAdd)
            ((applyAll [negProd] [(0, 1)] (fun _ => 0) negResid).residVec)
            ).residVec,
          varAdd := (applyAll [negProd] [(0, 0)]
            ((applyAll [negProd] [(0, 1)] (fun _ => 0) negResid).varAdd)
            ((applyAll [negProd] [(0, 1)] (fun _ => 0) negResid).residVec)
            ).varAdd,
          active := [0], iteration := 1 } := by
    rw [runDriver]
    rw [show (10:ℕ) = Nat.succ 9 from rfl]
    rw [driverLoop_succ]
    rw [if_neg (by norm_num [initState])]
    rw [hstep1]
    dsimp only
    rw [show (9:ℕ) = Nat.succ 8 from rfl, driverLoop_succ]
    rw [if_neg (by norm_num)]
    rw [hstep2]
  constructor
  · simp [NUT_KEYS, negResid]
  constructor
  · rw [hfin]
  · show (runDriver [negProd] [0] negResid 1 10).varAdd 0 = 1
    rw [hfin]
    show (applyAll [negProd] [(0, 0)]
      ((applyAll [negProd] [(0, 1)] (fun _ => 0) negResid).varAdd)
      ((applyAll [negProd] [(0, 1)] (fun _ => 0) negResid).residVec)
      ).varAdd 0 = 1
    rw [applyAll, List.foldl_cons, List.foldl_nil, applyOne]
    rw [applyIncrement_nonpos _ _ _ (le_refl 0)]
    rw [if_pos (le_refl (0:ℚ))]
    exact ha_va

end OptimizeNutrients
